import Mathlib

/-!
Verification of the multibuild target-filter, template and configuration
logic, shallowly embedded from the Go sources (cmd/multibuild/options.go,
cmd/multibuild/multibuild.go and the archiving build dispatcher).

A Go string is modelled as its list of characters (`GoStr`); all inputs
relevant here are ASCII, where Go's byte indexing and character indexing
agree.
-/

set_option maxRecDepth 8000

namespace Multibuild

/-- Go strings are modelled as lists of characters. -/
abbrev GoStr := List Char

/-! ## Filter/target matcher (options.go, `filter.matches`) -/

/-- Model of Go `strings.SplitN(s, sep, 2)` restricted to a one-character
separator: `none` when the separator does not occur (Go returns a single
part), otherwise the parts before and after the first occurrence. -/
def splitFirst (sep : Char) : GoStr → Option (GoStr × GoStr)
  | [] => none
  | c :: rest =>
    if c == sep then some ([], rest)
    else
      match splitFirst sep rest with
      | none => none
      | some (a, b) => some (c :: a, b)

/-- Embedding of `filter.matches` from options.go (`matches` is a Lean
keyword, hence the name): split the filter on the first `/`; with no `/`
the match degrades to whole-string equality; otherwise the target must
also split, and each component matches if the filter component is `*` or
equal to the target component. -/
def filterMatches (f t : GoStr) : Bool :=
  match splitFirst '/' f with
  | none => t == f
  | some (filterOS, filterArch) =>
    match splitFirst '/' t with
    | none => false
    | some (targetOS, targetArch) =>
      (filterOS == ['*'] || filterOS == targetOS) &&
      (filterArch == ['*'] || filterArch == targetArch)

/-- Specification-side os component: everything before the first `/`. -/
def osComp (s : GoStr) : GoStr := s.takeWhile (fun c => !(c == '/'))

/-- Specification-side arch component: everything after the first `/`. -/
def archComp (s : GoStr) : GoStr := (s.dropWhile (fun c => !(c == '/'))).tail

/-! ## Output template validator (options.go, `validateTemplate`) -/

/-- Characters accepted verbatim in a template path (options.go,
`isAllowedPathChar`). -/
def isAllowedPathChar (c : Char) : Bool :=
  (c ≥ 'a' && c ≤ 'z') || (c ≥ 'A' && c ≤ 'Z') || (c ≥ '0' && c ≤ '9') ||
  c == '_' || c == '-' || c == '/' || c == '.'

/-- Characters allowed inside a placeholder name (options.go,
`isAllowedPlaceholderChar`). -/
def isAllowedPlaceholderChar (c : Char) : Bool :=
  (c ≥ 'A' && c ≤ 'Z') || c == '_' || (c ≥ '0' && c ≤ '9')

/-- The recognized placeholder names (options.go, `allowedPlaceholders`);
the same set is also the required set checked after the scan. -/
def allowedNames : List GoStr := ["GOOS".data, "GOARCH".data, "TARGET".data]

/-- Error causes of `validateTemplate` (the Go messages carry positions
and characters; only the branch taken is modelled). -/
inductive TplErr where
  | emptyTemplate
  | expectedOpenBrace
  | badPlaceholderChar
  | unexpectedPlaceholder
  | unexpectedChar
  | missingPlaceholder
deriving DecidableEq

/-- Outcome of `validateTemplate`. On success Go returns the input string
itself as the template, so no payload is carried. `panicOOB` records that
the Go code indexes the string out of bounds while formatting an error
message (a run-time panic, not an error return). -/
inductive VTResult where
  | ok
  | error (e : TplErr)
  | panicOOB
deriving DecidableEq

/-- Outcome of the inner placeholder loop of `validateTemplate` (the
`for j < len(s) && s[j] != '}'` loop): on finding `}` the collected name
and the remainder after `}`; `panicOOB` when the loop runs off the end of
the string (the Go error branch then formats `s[j]` with `j = len(s)`). -/
inductive PHResult where
  | ok (name rest : GoStr)
  | error (e : TplErr)
  | panicOOB
deriving DecidableEq

/-- Inner placeholder scan of `validateTemplate`: walk until `}`,
rejecting characters not allowed in a placeholder name. -/
def vtPlaceholder : GoStr → GoStr → PHResult
  | [], _ => .panicOOB
  | c :: rest, acc =>
    if c == '\x7d' then .ok acc rest
    else if isAllowedPlaceholderChar c then vtPlaceholder rest (acc ++ [c])
    else .error .badPlaceholderChar

/-- Supporting fact for the termination of `vtScan`: a successful
placeholder scan consumes at least the closing brace. -/
def vtPlaceholder_consumes :
    ∀ (cs acc nm r : GoStr), vtPlaceholder cs acc = .ok nm r →
      r.length < cs.length := by
  intro cs
  induction cs with
  | nil => intro acc nm r h; simp [vtPlaceholder] at h
  | cons c rest ih =>
    intro acc nm r h
    by_cases hbr : c == '\x7d'
    · simp [vtPlaceholder, hbr] at h
      simp [← h.2]
    · by_cases hph : isAllowedPlaceholderChar c
      · simp only [vtPlaceholder, hbr, Bool.false_eq_true, if_neg,
          not_false_eq_true, hph, if_pos] at h
        have := ih (acc ++ [c]) nm r h
        simp
        omega
      · simp [vtPlaceholder, hbr, hph] at h

/-- Main scan of `validateTemplate` (the `for i := 0; i < len(s);` loop):
path characters pass, `$` must open a `${NAME}` placeholder whose name is
one of the recognized ones, and the names seen are collected; at the end
of the string all required placeholders must have been found. A `$` as
the final character makes Go format `s[i+1]` with `i+1 = len(s)`, a
panic, modelled by `panicOOB`. -/
def vtScan (cs : GoStr) (found : List GoStr) : VTResult :=
  match cs with
  | [] =>
    if allowedNames.all (fun n => found.contains n) then .ok
    else .error .missingPlaceholder
  | c :: rest =>
    if isAllowedPathChar c then vtScan rest found
    else if c == '$' then
      match rest with
      | [] => .panicOOB
      | b :: rest2 =>
        if b == '\x7b' then
          match h : vtPlaceholder rest2 [] with
          | .ok nm rest3 =>
            if allowedNames.contains nm then vtScan rest3 (nm :: found)
            else .error .unexpectedPlaceholder
          | .error e => .error e
          | .panicOOB => .panicOOB
        else .error .expectedOpenBrace
    else .error .unexpectedChar
termination_by cs.length
decreasing_by
  · simp
  · have := vtPlaceholder_consumes rest2 [] nm rest3 h
    simp
    omega

/-- Embedding of `validateTemplate` (options.go): the empty string is
rejected up front, otherwise the scan runs with no names found yet. -/
def validateTemplate (s : GoStr) : VTResult :=
  if s.isEmpty then .error .emptyTemplate else vtScan s []

/-- Specification-side grammar of the claim: a template is a
concatenation of single allowed path characters and placeholders
`${NAME}` with `NAME` one of the recognized names; the second index
collects the placeholder names in order of appearance. -/
inductive TplTokens : GoStr → List GoStr → Prop where
  | nil : TplTokens [] []
  | path {c : Char} {cs : GoStr} {ns : List GoStr} :
      isAllowedPathChar c = true → TplTokens cs ns → TplTokens (c :: cs) ns
  | placeholder {n : GoStr} {cs : GoStr} {ns : List GoStr} :
      n ∈ allowedNames → TplTokens cs ns →
      TplTokens ('$' :: '\x7b' :: (n ++ '\x7d' :: cs)) (n :: ns)

/-! ## Filter-string validator (options.go, `validateFilterString`) -/

/-- ASCII alphanumeric test (options.go, `isAlphaNum`). -/
def isAlphaNum (c : Char) : Bool :=
  (c ≥ 'a' && c ≤ 'z') || (c ≥ 'A' && c ≤ 'Z') || (c ≥ '0' && c ≤ '9')

/-- Error causes of `validateFilterString` (positions and characters of
the Go messages are not modelled; both "unexpected character" messages
share one constructor). -/
inductive FErr where
  | expectedGOOS
  | expectedSlash
  | expectedGOARCH
  | unexpectedChar
  | trailingComma
  | emptyFilterList
deriving DecidableEq

/-- One component scan of `validateFilterString`: a `*` consumes exactly
one character, otherwise the maximal alphanumeric run is consumed (possibly
empty, which the caller rejects). -/
def takeComp : GoStr → GoStr × GoStr
  | [] => ([], [])
  | c :: rest =>
    if c == '*' then (['*'], rest)
    else ((c :: rest).takeWhile isAlphaNum, (c :: rest).dropWhile isAlphaNum)

/-- One entry of the `validateFilterString` loop: `OS "/" ARCH`. On
success returns the entry text (Go rebuilds it as `goos + "/" + goarch`)
and the unconsumed remainder. -/
def parseEntry (cs : GoStr) : Except FErr (GoStr × GoStr) :=
  match takeComp cs with
  | (os, r1) =>
    if os.isEmpty then .error .expectedGOOS
    else
      match r1 with
      | [] => .error .expectedSlash
      | c :: r2 =>
        if c == '/' then
          match takeComp r2 with
          | (arch, r3) =>
            if arch.isEmpty then .error .expectedGOARCH
            else .ok (os ++ '/' :: arch, r3)
        else .error .unexpectedChar

/-- Supporting fact for the termination of `parseLoop`: the components
reassemble the input. -/
def takeComp_append : ∀ cs : GoStr, (takeComp cs).1 ++ (takeComp cs).2 = cs := by
  intro cs
  cases cs with
  | nil => rfl
  | cons c rest =>
    by_cases h : c == '*'
    · simp [takeComp, h, beq_iff_eq.mp h]
    · simp [takeComp, h]

/-- Supporting fact for the termination of `parseLoop`: a parsed entry
consumes at least three characters. -/
def parseEntry_consumes :
    ∀ (cs e r : GoStr), parseEntry cs = .ok (e, r) → r.length + 3 ≤ cs.length := by
  intro cs e r h
  unfold parseEntry at h
  split at h
  next os r1 htc =>
  have hcs : os ++ r1 = cs := by rw [← takeComp_append cs, htc]
  split at h
  · cases h
  next hos =>
  split at h
  · cases h
  next c r2 =>
  split at h
  · next hsl =>
    split at h
    next arch r3 hta =>
    have hr2 : arch ++ r3 = r2 := by rw [← takeComp_append r2, hta]
    split at h
    · cases h
    next har =>
    simp only [Except.ok.injEq, Prod.mk.injEq] at h
    obtain ⟨-, hr⟩ := h
    subst hr
    have h1 : 1 ≤ os.length := by
      cases os with
      | nil => simp at hos
      | cons _ _ => simp
    have h2 : 1 ≤ arch.length := by
      cases arch with
      | nil => simp at har
      | cons _ _ => simp
    have hl1 := congrArg List.length hcs
    have hl2 := congrArg List.length hr2
    simp at hl1 hl2
    omega
  · cases h

/-- The entry loop of `validateFilterString`: parse one entry, then either
end of input, or a comma that must be followed by more input; entries are
collected in input order. -/
def parseLoop (cs : GoStr) : Except FErr (List GoStr) :=
  match h : parseEntry cs with
  | .error e => .error e
  | .ok (entry, rest) =>
    match rest with
    | [] => .ok [entry]
    | c :: rest2 =>
      if c == ',' then
        if rest2.isEmpty then .error .trailingComma
        else
          match parseLoop rest2 with
          | .error e => .error e
          | .ok l => .ok (entry :: l)
      else .error .unexpectedChar
termination_by cs.length
decreasing_by
  have := parseEntry_consumes cs entry (c :: rest2) h
  simp at this ⊢
  omega

/-- Embedding of `validateFilterString` (options.go): the loop body only
runs on a non-empty input, and an empty input leaves the output list
empty, which is rejected after the loop ("empty filter list"). -/
def validateFilterString (s : GoStr) : Except FErr (List GoStr) :=
  if s.isEmpty then .error .emptyFilterList else parseLoop s

/-- Specification-side component grammar: exactly the wildcard, or one or
more alphanumeric characters. -/
def compOK (c : GoStr) : Bool := c == ['*'] || (!c.isEmpty && c.all isAlphaNum)

/-- Specification-side entry grammar: `OS "/" ARCH` with both components
well-formed (the arch component cannot itself contain `/`, since `/` is
neither alphanumeric nor the wildcard). -/
def entryOK (e : GoStr) : Bool :=
  match splitFirst '/' e with
  | some (os, arch) => compOK os && compOK arch
  | none => false

/-- Specification-side split of the raw text on commas (every comma
separates; empty pieces witness leading/trailing/double commas). -/
def splitComma : GoStr → List GoStr
  | [] => [[]]
  | c :: rest =>
    if c == ',' then [] :: splitComma rest
    else
      match splitComma rest with
      | [] => [[c]]
      | p :: ps => (c :: p) :: ps

/-- Joining with single commas, the inverse of `splitComma`. -/
def joinComma : List GoStr → GoStr
  | [] => []
  | [e] => e
  | e :: rest => e ++ ',' :: joinComma rest

/-- Specification-side acceptance of a whole filter string: non-empty,
and every comma-separated piece is a well-formed entry. -/
def filterSpecOK (s : GoStr) : Bool := !s.isEmpty && (splitComma s).all entryOK

/-! ## Target list resolver (options.go, `buildTargetList`) -/

/-- All options of multibuild (options.go, struct `options`). -/
structure options where
  Output : GoStr
  Include : List GoStr
  Exclude : List GoStr
deriving DecidableEq

/-- Error of `buildTargetList`: a required include filter matched no
target of the final result. -/
inductive BuildErr where
  | unsatisfiableInclude (f : GoStr)
deriving DecidableEq

/-- First pass of `buildTargetList`: keep the targets matched by at least
one include filter. -/
def includePass (o : options) (targets : List GoStr) : List GoStr :=
  targets.filter (fun t => o.Include.any (fun f => filterMatches f t))

/-- Second pass of `buildTargetList`: drop the targets matched by at
least one exclude filter. -/
def excludePass (o : options) (targets : List GoStr) : List GoStr :=
  targets.filter (fun t => !(o.Exclude.any (fun f => filterMatches f t)))

/-- Embedding of `options.buildTargetList` (options.go): include pass,
exclude pass, then the first include filter with no surviving match (if
any) aborts with an error naming it. -/
def buildTargetList (o : options) (targets : List GoStr) :
    Except BuildErr (List GoStr) :=
  let final := excludePass o (includePass o targets)
  match o.Include.find? (fun inc => !(final.any (fun t => filterMatches inc t))) with
  | some inc => .error (.unsatisfiableInclude inc)
  | none => .ok final

/-- The default include applied by `scanBuildDir` when no include filter
was declared (options.go: `opts.Include = []filter{"*/*"}`). -/
def withDefaultInclude (o : options) : options :=
  if o.Include.isEmpty then { o with Include := ["*/*".data] } else o

/-- Resolution as run by the program: defaults applied by `scanBuildDir`,
then `buildTargetList`. -/
def resolveDefault (o : options) (targets : List GoStr) :
    Except BuildErr (List GoStr) :=
  buildTargetList (withDefaultInclude o) targets

/-! ## Configuration scanner (options.go, `scanBuildPath` / `scanBuildDir`)

A source file is modelled as its list of lines (the splitting done by
`bufio.Scanner`); `strings.TrimSpace` is modelled over the ASCII
whitespace characters. -/

/-- ASCII whitespace, the fragment of `unicode.IsSpace` relevant here. -/
def isSpace (c : Char) : Bool :=
  c == ' ' || c == '\t' || c == '\n' || c == '\x0b' || c == '\x0c' || c == '\r'

/-- Model of `strings.TrimSpace` on ASCII text. -/
def trimSpace (cs : GoStr) : GoStr :=
  ((cs.dropWhile isSpace).reverse.dropWhile isSpace).reverse

/-- The directive marker. -/
def goMarker : GoStr := "//go:multibuild:".data

/-- The `output=` directive key. -/
def outputKey : GoStr := "//go:multibuild:output=".data

/-- The `include=` directive key. -/
def includeKey : GoStr := "//go:multibuild:include=".data

/-- The `exclude=` directive key. -/
def excludeKey : GoStr := "//go:multibuild:exclude=".data

/-- Error causes of the scanner. `duplicateOutput` covers both duplicate
checks (within one file in `scanBuildPath` and across files in
`scanBuildDir`); the other constructors wrap the nested validator
errors and the unknown-directive rejection. -/
inductive ScanErr where
  | duplicateOutput
  | invalidTemplate (e : TplErr)
  | invalidFilter (e : FErr)
  | unknownDirective
deriving DecidableEq

/-- Outcome of a scan; `panicked` propagates a `validateTemplate` panic
(the Go process crashes rather than returning). -/
inductive ScanRes where
  | ok (o : options)
  | err (e : ScanErr)
  | panicked
deriving DecidableEq

/-- Line loop of `scanBuildPath`: trim, skip non-directive lines,
dispatch on the directive key. `output=` first checks for a duplicate,
then validates; `include=`/`exclude=` validate and replace the
respective list; any other marker line is an unknown directive. -/
def scanLines : List GoStr → options → ScanRes
  | [], opts => .ok opts
  | l :: ls, opts =>
    let line := trimSpace l
    if !(goMarker.isPrefixOf line) then scanLines ls opts
    else if outputKey.isPrefixOf line then
      let rest := line.drop outputKey.length
      if !opts.Output.isEmpty then .err .duplicateOutput
      else
        match validateTemplate rest with
        | .ok => scanLines ls { opts with Output := rest }
        | .error e => .err (.invalidTemplate e)
        | .panicOOB => .panicked
    else if includeKey.isPrefixOf line then
      match validateFilterString (line.drop includeKey.length) with
      | .ok fs => scanLines ls { opts with Include := fs }
      | .error e => .err (.invalidFilter e)
    else if excludeKey.isPrefixOf line then
      match validateFilterString (line.drop excludeKey.length) with
      | .ok fs => scanLines ls { opts with Exclude := fs }
      | .error e => .err (.invalidFilter e)
    else .err .unknownDirective

/-- Embedding of `scanBuildPath` (options.go): scan one file's lines
starting from the zero value of `options`. -/
def scanBuildPath (lines : List GoStr) : ScanRes :=
  scanLines lines ⟨[], [], []⟩

/-- File loop of `scanBuildDir`: scan each file, reject a second file
that also set `output=`, concatenate the filter lists. -/
def scanDir : List (List GoStr) → options → ScanRes
  | [], opts => .ok opts
  | f :: fs, opts =>
    match scanBuildPath f with
    | .panicked => .panicked
    | .err e => .err e
    | .ok topts =>
      if !opts.Output.isEmpty && !topts.Output.isEmpty then .err .duplicateOutput
      else
        scanDir fs
          ⟨if !topts.Output.isEmpty then topts.Output else opts.Output,
           opts.Include ++ topts.Include,
           opts.Exclude ++ topts.Exclude⟩

/-- Defaults applied at the end of `scanBuildDir`: universal include if
none was declared, the two fixed cgo exclusions, and the default output
template. -/
def applyScanDefaults (o : options) : options :=
  let o1 := withDefaultInclude o
  let o2 := { o1 with Exclude := o1.Exclude ++ ["android/*".data, "ios/*".data] }
  if o2.Output.isEmpty then
    { o2 with Output := "$\x7bTARGET\x7d-$\x7bGOOS\x7d-$\x7bGOARCH\x7d".data }
  else o2

/-- Embedding of `scanBuildDir` (options.go) over in-memory file
contents (file opening is not modelled). -/
def scanBuildDir (files : List (List GoStr)) : ScanRes :=
  match scanDir files ⟨[], [], []⟩ with
  | .ok o => .ok (applyScanDefaults o)
  | r => r

/-- A line carrying an `output=` directive (after trimming). -/
def isOutputLine (l : GoStr) : Bool := outputKey.isPrefixOf (trimSpace l)

/-- Number of `output=` directive lines across a whole scan. -/
def countOutputs (files : List (List GoStr)) : Nat :=
  (files.map (fun f => f.countP isOutputLine)).sum

/-- A line the scanner accepts without error: either not a directive, or
a directive whose value validates. -/
def lineValid (l : GoStr) : Bool :=
  let line := trimSpace l
  if !(goMarker.isPrefixOf line) then true
  else if outputKey.isPrefixOf line then
    match validateTemplate (line.drop outputKey.length) with
    | .ok => true
    | _ => false
  else if includeKey.isPrefixOf line then
    match validateFilterString (line.drop includeKey.length) with
    | .ok _ => true
    | .error _ => false
  else if excludeKey.isPrefixOf line then
    match validateFilterString (line.drop excludeKey.length) with
    | .ok _ => true
    | .error _ => false
  else false

/-! ## Per-target post-build step of the archiving dispatcher
(`doMultibuild`): after a successful compile, write each requested
archive, then delete the raw binary when `raw` was not requested.
The file-system operations are abstracted by an oracle of success
flags; the archive formats are the constants `formatRaw`, `formatZip`,
`formatTgz` switched on by `doMultibuild`. -/

/-- Archive formats (the `format` constants used by `doMultibuild`). -/
inductive Fmt where
  | raw
  | zip
  | tgz
deriving DecidableEq

/-- Success flags for the file-system operations performed by the
archiving step, in the order the Go code performs them. -/
structure IOEnv where
  createOk : Bool
  headerOk : Bool
  statOk : Bool
  openOk : Bool
  copyOk : Bool
  sizeOk : Bool
  removeOk : Bool
deriving DecidableEq

/-- Outcome of the post-build step of one target: `exited code` models
`os.Exit(code)`, `completed w` a normal completion where `w` records
whether the raw-binary deletion failed (a reported warning). -/
inductive PostBuildResult where
  | exited (code : Nat)
  | completed (removeWarning : Bool)
deriving DecidableEq

/-- One format of the archive loop in `doMultibuild`: `some code` models
`os.Exit(code)` on the first failing operation, `none` success. The zip
branch creates the archive, creates the entry header, stats, opens and
copies the raw binary and checks the copied size; the tar.gz branch does
the same minus the separate header-creation failure point. -/
def archiveOne (env : IOEnv) : Fmt → Option Nat
  | .raw => none
  | .zip =>
    if !env.createOk then some 1
    else if !env.headerOk then some 1
    else if !env.statOk then some 1
    else if !env.openOk then some 1
    else if !env.copyOk then some 1
    else if !env.sizeOk then some 1
    else none
  | .tgz =>
    if !env.createOk then some 1
    else if !env.statOk then some 1
    else if !env.openOk then some 1
    else if !env.copyOk then some 1
    else if !env.sizeOk then some 1
    else none

/-- The `for _, format := range opts.Format` loop: first failure exits. -/
def archiveLoop (env : IOEnv) : List Fmt → Option Nat
  | [] => none
  | f :: fs =>
    match archiveOne env f with
    | some c => some c
    | none => archiveLoop env fs

/-- Post-compile tail of one build task in `doMultibuild`: run the
archive loop (any failure exits the process with status 1), then, if
`raw` is not among the requested formats, remove the raw binary; a
removal failure is only reported (`completed true`), never fatal. -/
def postBuild (env : IOEnv) (formats : List Fmt) : PostBuildResult :=
  match archiveLoop env formats with
  | some c => .exited c
  | none =>
    if !(formats.contains .raw) then
      if env.removeOk then .completed false else .completed true
    else .completed false

/-! ## Helper lemmas about `splitFirst` -/

theorem splitFirst_eq_none_of_not_mem {sep : Char} {cs : GoStr} (h : sep ∉ cs) :
    splitFirst sep cs = none := by
  induction cs with
  | nil => rfl
  | cons c rest ih =>
    simp only [List.mem_cons, not_or] at h
    have hc : (c == sep) = false := by
      simp only [beq_eq_false_iff_ne, ne_eq]
      exact fun hcc => h.1 (hcc ▸ rfl)
    simp [splitFirst, hc, ih h.2]

theorem splitFirst_of_mem {sep : Char} {cs : GoStr} (h : sep ∈ cs) :
    splitFirst sep cs =
      some (cs.takeWhile (fun c => !(c == sep)),
            (cs.dropWhile (fun c => !(c == sep))).tail) := by
  induction cs with
  | nil => simp at h
  | cons c rest ih =>
    by_cases hc : c = sep
    · subst hc
      simp [splitFirst]
    · have hcb : (c == sep) = false := beq_eq_false_iff_ne.mpr hc
      have hmem : sep ∈ rest := by
        rcases List.mem_cons.mp h with h1 | h1
        · exact absurd h1.symm hc
        · exact h1
      simp [splitFirst, hcb, ih hmem]

theorem splitFirst_decomp {sep : Char} {cs a b : GoStr}
    (h : splitFirst sep cs = some (a, b)) : cs = a ++ sep :: b := by
  induction cs generalizing a b with
  | nil => simp [splitFirst] at h
  | cons c rest ih =>
    by_cases hc : c = sep
    · subst hc
      simp [splitFirst] at h
      simp [h.1.symm, h.2.symm]
    · have hcb : (c == sep) = false := beq_eq_false_iff_ne.mpr hc
      simp only [splitFirst, hcb, Bool.false_eq_true, if_neg, not_false_eq_true] at h
      cases hr : splitFirst sep rest with
      | none => rw [hr] at h; simp at h
      | some p =>
        obtain ⟨a0, b0⟩ := p
        rw [hr] at h
        simp only [Option.some.injEq, Prod.mk.injEq] at h
        obtain ⟨ha, hb⟩ := h
        subst hb
        rw [← ha]
        simp [ih hr]

/-! ## Claim C1 and C9: the matcher -/

/-- C1: for every filter `f` and target `t`, when `f` contains a `/` and
`t` does too, `matches` is true iff the os component of `f` is the
wildcard or equal to the os component of `t`, and likewise independently
for the arch components; when `f` contains no `/`, `matches` is exactly
whole-string equality with `t`; no substring or partial matching occurs
in either case (a two-component filter against a slashless target is
covered by C9 and returns false). -/
theorem filterMatches_characterized (f t : GoStr) :
    filterMatches f t =
      if '/' ∈ f then
        if '/' ∈ t then
          ((osComp f == ['*']) || (osComp f == osComp t)) &&
          ((archComp f == ['*']) || (archComp f == archComp t))
        else false
      else t == f := by
  unfold filterMatches osComp archComp
  by_cases hf : '/' ∈ f
  · rw [splitFirst_of_mem hf, if_pos hf]
    by_cases ht : '/' ∈ t
    · rw [splitFirst_of_mem ht, if_pos ht]
    · rw [splitFirst_eq_none_of_not_mem ht, if_neg ht]
  · rw [splitFirst_eq_none_of_not_mem hf, if_neg hf]

/-- C9: a filter containing a `/` never matches a target that contains
no `/`. -/
theorem filterMatches_slashless_target (f t : GoStr)
    (hf : '/' ∈ f) (ht : '/' ∉ t) : filterMatches f t = false := by
  unfold filterMatches
  rw [splitFirst_of_mem hf, splitFirst_eq_none_of_not_mem ht]

/-- Witness for C9 at the concrete pair from the repository's tests:
`linux/*` does not match the slashless target `linux`. -/
theorem filterMatches_slashless_target_witness :
    ('/' ∈ "linux/*".data) ∧ ('/' ∉ "linux".data) ∧
      filterMatches "linux/*".data "linux".data = false :=
  ⟨by decide, by decide,
    filterMatches_slashless_target "linux/*".data "linux".data
      (by decide) (by decide)⟩

/-! ## Template validator lemmas -/

theorem vtPlaceholder_ok {cs acc nm r : GoStr}
    (h : vtPlaceholder cs acc = .ok nm r) :
    ∃ suf, nm = acc ++ suf ∧ cs = suf ++ '\x7d' :: r ∧
      ∀ c ∈ suf, isAllowedPlaceholderChar c = true := by
  induction cs generalizing acc with
  | nil => simp [vtPlaceholder] at h
  | cons c rest ih =>
    by_cases hbr : (c == '\x7d') = true
    · simp [vtPlaceholder, hbr] at h
      refine ⟨[], by simp [h.1], ?_, by simp⟩
      simp [beq_iff_eq.mp hbr, h.2]
    · by_cases hph : isAllowedPlaceholderChar c = true
      · simp only [vtPlaceholder, hbr, Bool.false_eq_true, if_neg,
          not_false_eq_true, hph, if_pos] at h
        obtain ⟨suf, h1, h2, h3⟩ := ih h
        refine ⟨c :: suf, by simp [h1], by simp [h2], ?_⟩
        intro x hx
        rcases List.mem_cons.mp hx with hx | hx
        · exact hx ▸ hph
        · exact h3 x hx
      · simp [vtPlaceholder, hbr, hph] at h

theorem vtPlaceholder_complete (nm : GoStr)
    (h : ∀ c ∈ nm, isAllowedPlaceholderChar c = true) (r acc : GoStr) :
    vtPlaceholder (nm ++ '\x7d' :: r) acc = .ok (acc ++ nm) r := by
  induction nm generalizing acc with
  | nil => simp [vtPlaceholder]
  | cons c nm ih =>
    have hc : isAllowedPlaceholderChar c = true := h c (by simp)
    have hbr : (c == '\x7d') = false := by
      cases hh : c == '\x7d'
      · rfl
      · exfalso
        rw [beq_iff_eq.mp hh] at hc
        simp [isAllowedPlaceholderChar] at hc
    simp only [List.cons_append, vtPlaceholder, hbr, Bool.false_eq_true,
      if_neg, not_false_eq_true, hc, if_pos]
    have := ih (fun x hx => h x (by simp [hx])) (acc ++ [c])
    simpa using this

theorem allowedNames_chars {n : GoStr} (h : n ∈ allowedNames) :
    ∀ c ∈ n, isAllowedPlaceholderChar c = true := by
  simp only [allowedNames, List.mem_cons] at h
  rcases h with h | h | h | h
  · subst h; decide
  · subst h; decide
  · subst h; decide
  · simp at h

/-- Soundness of the template scan: a successful scan is generated by the
token grammar, and every required name is collected or was already found. -/
theorem vtScan_nil_ok {found : List GoStr} (h : vtScan [] found = .ok) :
    ∃ ns, TplTokens [] ns ∧ ∀ nr ∈ allowedNames, nr ∈ ns ∨ nr ∈ found := by
  rw [vtScan.eq_1] at h
  split at h
  · next hall =>
    refine ⟨[], .nil, fun nr hnr => .inr ?_⟩
    have := List.all_eq_true.mp hall nr hnr
    simpa [List.elem_iff] using this
  · cases h

theorem vtScan_ok_tokens :
    ∀ (N : Nat) (cs : GoStr), cs.length ≤ N → ∀ found, vtScan cs found = .ok →
      ∃ ns, TplTokens cs ns ∧ ∀ nr ∈ allowedNames, nr ∈ ns ∨ nr ∈ found := by
  intro N
  induction N with
  | zero =>
    intro cs hlen found h
    have hcs : cs = [] := by
      cases cs with
      | nil => rfl
      | cons _ _ => simp at hlen
    subst hcs
    exact vtScan_nil_ok h
  | succ N ih =>
    intro cs hlen found h
    match cs, hlen, h with
    | [], hlen, h => exact vtScan_nil_ok h
    | [c], hlen, h =>
      rw [vtScan.eq_2] at h
      split at h
      · next hpath =>
        obtain ⟨ns, tok, hmem⟩ := vtScan_nil_ok h
        exact ⟨ns, .path hpath tok, hmem⟩
      · split at h <;> cases h
    | c :: b :: rest2, hlen, h =>
      rw [vtScan.eq_3] at h
      split at h
      · next hpath =>
        obtain ⟨ns, tok, hmem⟩ := ih (b :: rest2) (by simp at hlen ⊢; omega) found h
        exact ⟨ns, .path hpath tok, hmem⟩
      · next hpath =>
        split at h
        · next hd =>
          split at h
          · next hb =>
            split at h
            · next nm rest3 heq =>
              split at h
              · next hnm =>
                obtain ⟨suf, h1, h2, h3⟩ := vtPlaceholder_ok heq
                have hsuf : nm = suf := by simpa using h1
                subst hsuf
                have hlen3 : rest3.length ≤ N := by
                  have := congrArg List.length h2
                  simp at this hlen
                  omega
                obtain ⟨ns, tok, hmem⟩ := ih rest3 hlen3 (nm :: found) h
                have hmemn : nm ∈ allowedNames := by
                  simpa [List.elem_iff] using hnm
                have hc : c = '$' := beq_iff_eq.mp hd
                have hbb : b = '\x7b' := beq_iff_eq.mp hb
                subst hc; subst hbb
                rw [h2]
                refine ⟨nm :: ns, .placeholder hmemn tok, fun nr hnr => ?_⟩
                rcases hmem nr hnr with hx | hx
                · exact .inl (List.mem_cons_of_mem _ hx)
                · rcases List.mem_cons.mp hx with hx | hx
                  · exact .inl (hx ▸ List.mem_cons_self _ _)
                  · exact .inr hx
              · cases h
            · cases h
            · cases h
          · cases h
        · cases h

/-- Completeness of the template scan: anything generated by the token
grammar scans successfully, provided the required names are covered. -/
theorem tokens_vtScan {cs : GoStr} {ns : List GoStr} (h : TplTokens cs ns) :
    ∀ found, (∀ nr ∈ allowedNames, nr ∈ ns ∨ nr ∈ found) → vtScan cs found = .ok := by
  induction h with
  | nil =>
    intro found hmem
    rw [vtScan.eq_1, if_pos]
    apply List.all_eq_true.mpr
    intro nr hnr
    rcases hmem nr hnr with hx | hx
    · simp at hx
    · simpa [List.elem_iff] using hx
  | path hc htok ih =>
    intro found hmem
    next c cs2 ns2 =>
    cases cs2 with
    | nil => rw [vtScan.eq_2, if_pos hc]; exact ih found hmem
    | cons b rest2 => rw [vtScan.eq_3, if_pos hc]; exact ih found hmem
  | placeholder hn htok ih =>
    intro found hmem
    next n cs2 ns2 =>
    rw [vtScan.eq_3]
    rw [if_neg (by decide), if_pos (by decide), if_pos (by decide)]
    rw [vtPlaceholder_complete n (allowedNames_chars hn) cs2 []]
    simp only [List.nil_append]
    rw [if_pos (by simpa [List.elem_iff] using hn)]
    apply ih
    intro nr hnr
    rcases hmem nr hnr with hx | hx
    · rcases List.mem_cons.mp hx with hx | hx
      · exact .inr (hx ▸ List.mem_cons_self _ _)
      · exact .inl hx
    · exact .inr (List.mem_cons_of_mem _ hx)

/-! ## Claims C2 and C3: the template validator -/

/-- C2: `validateTemplate` succeeds exactly on strings built from allowed
path characters and the three recognized placeholders with every required
placeholder present at least once; in particular the empty string and a
bare `.` are both rejected with an error. -/
theorem validateTemplate_accepts_iff :
    (∀ s : GoStr, validateTemplate s = .ok ↔
      ∃ ns, TplTokens s ns ∧
        "GOOS".data ∈ ns ∧ "GOARCH".data ∈ ns ∧ "TARGET".data ∈ ns)
    ∧ validateTemplate [] = .error .emptyTemplate
    ∧ validateTemplate ['.'] = .error .missingPlaceholder := by
  refine ⟨fun s => ⟨?_, ?_⟩, rfl,
    by simp [validateTemplate, vtScan, allowedNames, isAllowedPathChar]⟩
  · intro h
    unfold validateTemplate at h
    split at h
    · cases h
    · obtain ⟨ns, tok, hmem⟩ := vtScan_ok_tokens s.length s le_rfl [] h
      refine ⟨ns, tok, ?_, ?_, ?_⟩
      · rcases hmem "GOOS".data (by simp [allowedNames]) with hx | hx
        · exact hx
        · simp at hx
      · rcases hmem "GOARCH".data (by simp [allowedNames]) with hx | hx
        · exact hx
        · simp at hx
      · rcases hmem "TARGET".data (by simp [allowedNames]) with hx | hx
        · exact hx
        · simp at hx
  · rintro ⟨ns, tok, h1, h2, h3⟩
    have hne : ¬(s.isEmpty = true) := by
      intro hs
      rw [List.isEmpty_iff] at hs
      subst hs
      cases tok
      simp at h1
    unfold validateTemplate
    rw [if_neg hne]
    apply tokens_vtScan tok
    intro nr hnr
    simp only [allowedNames, List.mem_cons] at hnr
    rcases hnr with hnr | hnr | hnr | hnr
    · exact .inl (hnr ▸ h1)
    · exact .inl (hnr ▸ h2)
    · exact .inl (hnr ▸ h3)
    · simp at hnr

/-- C3 (evidence of the code bug): on an unterminated placeholder at the
end of the input, and on a `$` as the final character, the Go code
formats `s[j]` (respectively `s[i+1]`) with the index equal to the
string length inside the error message, an out-of-bounds panic — it does
not return the `InvalidTemplate` error the claim describes. -/
theorem validateTemplate_panics_at_end :
    validateTemplate ("bin/$\x7bGOOS".data) = .panicOOB ∧
    validateTemplate ("a$".data) = .panicOOB := by
  constructor <;>
    simp [validateTemplate, vtScan, vtPlaceholder,
      isAllowedPathChar, isAllowedPlaceholderChar]

/-! ## Claims C4 and C5: the target list resolver -/

/-- C4: if some include filter of the configuration matches no target of
the final (include-then-exclude filtered) result, `buildTargetList`
returns an `UnsatisfiableInclude` error naming an include filter with
zero surviving matches — regardless of the other include filters. -/
theorem buildTargetList_unsatisfiable (o : options) (targets : List GoStr)
    (inc : GoStr) (hinc : inc ∈ o.Include)
    (hz : ∀ t ∈ excludePass o (includePass o targets), filterMatches inc t = false) :
    ∃ f, buildTargetList o targets = .error (.unsatisfiableInclude f) ∧
      f ∈ o.Include ∧
      ∀ t ∈ excludePass o (includePass o targets), filterMatches f t = false := by
  simp only [buildTargetList]
  cases hf : o.Include.find?
      (fun inc =>
        !((excludePass o (includePass o targets)).any fun t => filterMatches inc t)) with
  | none =>
    exfalso
    have hnone := List.find?_eq_none.mp hf inc hinc
    simp only [Bool.not_eq_true', Bool.not_eq_false] at hnone
    obtain ⟨t, ht, hmt⟩ := List.any_eq_true.mp hnone
    exact absurd hmt (by simp [hz t ht])
  | some f =>
    have hp := List.find?_some hf
    have hmemf := List.mem_of_find?_eq_some hf
    refine ⟨f, rfl, hmemf, ?_⟩
    intro t ht
    simp only [Bool.not_eq_true'] at hp
    have := List.any_eq_false.mp hp t ht
    simpa using this

/-- Witness for C4 at the configuration of the spec's example: the
include `linux/*` is fully cancelled by the exclude `linux/*` while
`windows/*` keeps a surviving match, and resolution errors naming it. -/
theorem buildTargetList_unsatisfiable_witness :
    ∃ f, buildTargetList
        ⟨[], ["windows/*".data, "linux/*".data], ["linux/*".data]⟩
        ["windows/amd64".data, "linux/amd64".data] =
          .error (.unsatisfiableInclude f) ∧
      f ∈ (["windows/*".data, "linux/*".data] : List GoStr) ∧
      ∀ t ∈ excludePass
          ⟨[], ["windows/*".data, "linux/*".data], ["linux/*".data]⟩
          (includePass
            ⟨[], ["windows/*".data, "linux/*".data], ["linux/*".data]⟩
            ["windows/amd64".data, "linux/amd64".data]),
        filterMatches f t = false :=
  buildTargetList_unsatisfiable
    ⟨[], ["windows/*".data, "linux/*".data], ["linux/*".data]⟩
    ["windows/amd64".data, "linux/amd64".data]
    "linux/*".data (by decide) (by decide)

/-- The universal wildcard filter matches every two-component target. -/
theorem starAll_matches {t : GoStr} (ht : '/' ∈ t) :
    filterMatches "*/*".data t = true := by
  unfold filterMatches
  rw [show splitFirst '/' ("*/*".data) = some (['*'], ['*']) from rfl,
    splitFirst_of_mem ht]
  simp

/-- C5 (counterexample): with no includes declared and an exclude that
cancels every target, the claim demands the empty remainder as result,
but resolution fails with `UnsatisfiableInclude` on the default wildcard
instead. -/
theorem resolveDefault_all_excluded_cex :
    ((["linux/amd64".data] : List GoStr).filter
        (fun t => !((["linux/amd64".data] : List GoStr).any
          fun f => filterMatches f t)) = []) ∧
    resolveDefault ⟨[], [], ["linux/amd64".data]⟩ ["linux/amd64".data] =
      .error (.unsatisfiableInclude "*/*".data) := by
  constructor
  · decide
  · rfl

/-- C5 (amended): over a universe of well-formed `os/arch` targets and a
configuration with no include filters, the default universal include
applied by `scanBuildDir` retains every target in the first pass; when at
least one target survives the excludes the result is exactly the universe
minus the excluded targets in universe order, and when the excludes
cancel every target, resolution fails with `UnsatisfiableInclude` on the
default wildcard. -/
theorem resolveDefault_empty_include (out : GoStr) (excl : List GoStr)
    (univ : List GoStr) (hwf : ∀ t ∈ univ, '/' ∈ t) :
    includePass (withDefaultInclude ⟨out, [], excl⟩) univ = univ
    ∧ (univ.filter (fun t => !(excl.any fun f => filterMatches f t)) ≠ [] →
        resolveDefault ⟨out, [], excl⟩ univ =
          .ok (univ.filter (fun t => !(excl.any fun f => filterMatches f t))))
    ∧ (univ.filter (fun t => !(excl.any fun f => filterMatches f t)) = [] →
        resolveDefault ⟨out, [], excl⟩ univ =
          .error (.unsatisfiableInclude "*/*".data)) := by
  have hdef : withDefaultInclude ⟨out, [], excl⟩ = ⟨out, ["*/*".data], excl⟩ := rfl
  have hinc : includePass ⟨out, ["*/*".data], excl⟩ univ = univ := by
    apply List.filter_eq_self.mpr
    intro t ht
    simp [starAll_matches (hwf t ht)]
  have hexc : excludePass ⟨out, ["*/*".data], excl⟩ univ =
      univ.filter (fun t => !(excl.any fun f => filterMatches f t)) := rfl
  refine ⟨hdef ▸ hinc, ?_, ?_⟩
  · intro hne
    unfold resolveDefault
    rw [hdef]
    simp only [buildTargetList, hinc, hexc]
    rw [List.find?_cons_of_neg, List.find?_nil]
    simp only [Bool.not_eq_true', Bool.not_eq_false]
    apply List.any_eq_true.mpr
    obtain ⟨t0, ht0⟩ := List.exists_mem_of_ne_nil _ hne
    refine ⟨t0, ht0, ?_⟩
    have : t0 ∈ univ := (List.mem_filter.mp ht0).1
    simp [starAll_matches (hwf t0 this)]
  · intro hnil
    unfold resolveDefault
    rw [hdef]
    simp only [buildTargetList, hinc, hexc, hnil]
    rfl

/-- Witness for C5's amended statement at the spec's example shape:
universe `windows/amd64, linux/amd64`, no includes, exclude `windows/*`;
the result is the surviving `linux/amd64`. -/
theorem resolveDefault_empty_include_witness :
    resolveDefault ⟨[], [], ["windows/*".data]⟩
        ["windows/amd64".data, "linux/amd64".data] =
      .ok ["linux/amd64".data] := by
  have h := resolveDefault_empty_include [] ["windows/*".data]
    ["windows/amd64".data, "linux/amd64".data] (by decide)
  have h2 := h.2.1 (by decide)
  have h3 : (["windows/amd64".data, "linux/amd64".data] : List GoStr).filter
      (fun t => !((["windows/*".data] : List GoStr).any
        fun f => filterMatches f t)) = ["linux/amd64".data] := by decide
  rw [h3] at h2
  exact h2

/-! ## Claim C8: post-compile archiving failures -/

/-- C8 (counterexample): with the zip format requested and the archive
creation failing (all other operations fine), the post-build step exits
the process with status 1 — it does not complete with a mere diagnostic
as the claim states. -/
theorem postBuild_archive_failure_cex :
    postBuild ⟨false, true, true, true, true, true, true⟩ [Fmt.zip] =
      .exited 1 ∧
    ∀ w, postBuild ⟨false, true, true, true, true, true, true⟩ [Fmt.zip] ≠
      .completed w := by
  exact ⟨rfl, fun w h => by cases h⟩

/-- C8 (amended): after a successful compile, a failure of any archive
write exits the whole process with status 1; only when every archive
operation succeeds does the step complete, and then the raw-binary
deletion failure (when `raw` was not requested) is reported as a warning
without failing the run. -/
theorem postBuild_amended (env : IOEnv) (formats : List Fmt) :
    (archiveLoop env formats ≠ none → postBuild env formats = .exited 1)
    ∧ (archiveLoop env formats = none →
        postBuild env formats =
          .completed (!(formats.contains .raw) && !env.removeOk)) := by
  constructor
  · intro hne
    cases hloop : archiveLoop env formats with
    | none => exact absurd hloop hne
    | some c =>
      have hc : c = 1 := by
        clear hne
        induction formats with
        | nil => simp [archiveLoop] at hloop
        | cons f fs ih =>
          simp only [archiveLoop] at hloop
          cases hone : archiveOne env f with
          | some c2 =>
            rw [hone] at hloop
            have h2 : c2 = 1 := by
              cases f with
              | raw => simp [archiveOne] at hone
              | zip =>
                simp only [archiveOne] at hone
                repeat' split at hone
                all_goals simp_all
              | tgz =>
                simp only [archiveOne] at hone
                repeat' split at hone
                all_goals simp_all
            simp only [Option.some.injEq] at hloop
            omega
          | none =>
            rw [hone] at hloop
            exact ih hloop
      subst hc
      simp [postBuild, hloop]
  · intro hnone
    simp only [postBuild, hnone]
    cases hr : formats.contains Fmt.raw <;> cases hrm : env.removeOk <;> simp

/-- Witness for C8's amended statement: zip requested without raw, all
archive operations succeed, the deletion fails — the step completes with
the warning flag set instead of exiting. -/
theorem postBuild_amended_witness :
    postBuild ⟨true, true, true, true, true, true, false⟩ [Fmt.zip] =
      .completed true :=
  (postBuild_amended ⟨true, true, true, true, true, true, false⟩ [Fmt.zip]).2 rfl

/-! ## Filter-string parser lemmas -/

theorem compOK_ne_nil {c : GoStr} (h : compOK c = true) : c ≠ [] := by
  intro hc
  subst hc
  simp [compOK] at h

theorem compOK_not_mem {c : GoStr} (h : compOK c = true) {a : Char}
    (ha : isAlphaNum a = false) (hstar : a ≠ '*') : a ∉ c := by
  intro hmem
  unfold compOK at h
  rcases Bool.or_eq_true_iff.mp h with h | h
  · have : c = ['*'] := by simpa using h
    subst this
    simp at hmem
    exact hstar hmem
  · have := List.all_eq_true.mp (Bool.and_eq_true_iff.mp h).2 a hmem
    rw [ha] at this
    cases this

theorem splitFirst_append_of_not_mem {sep : Char} {a : GoStr} (h : sep ∉ a)
    (b : GoStr) : splitFirst sep (a ++ sep :: b) = some (a, b) := by
  induction a with
  | nil => simp [splitFirst]
  | cons c cs ih =>
    simp only [List.mem_cons, not_or] at h
    have hc : (c == sep) = false := by
      simp only [beq_eq_false_iff_ne, ne_eq]
      exact fun hcc => h.1 (hcc ▸ rfl)
    simp [splitFirst, hc, ih h.2]

theorem takeWhile_all_app {p : Char → Bool} {l1 : GoStr}
    (h : ∀ x ∈ l1, p x = true) (l2 : GoStr) :
    (l1 ++ l2).takeWhile p = l1 ++ l2.takeWhile p ∧
    (l1 ++ l2).dropWhile p = l2.dropWhile p := by
  induction l1 with
  | nil => simp
  | cons c cs ih =>
    have hc : p c = true := h c (by simp)
    have ih2 := ih (fun x hx => h x (by simp [hx]))
    simp [List.takeWhile_cons, List.dropWhile_cons, hc, ih2.1, ih2.2]

theorem takeComp_sound {cs os r : GoStr} (h : takeComp cs = (os, r)) :
    cs = os ++ r ∧ (os.isEmpty = false → compOK os = true) := by
  constructor
  · rw [← takeComp_append cs, h]
  · intro hne
    cases cs with
    | nil =>
      simp [takeComp] at h
      simp [← h.1] at hne
    | cons c rest =>
      by_cases hc : (c == '*') = true
      · simp [takeComp, hc] at h
        rw [← h.1]
        rfl
      · simp only [takeComp, hc, Bool.false_eq_true, if_neg, not_false_eq_true,
          Prod.mk.injEq] at h
        obtain ⟨h1, h2⟩ := h
        subst h1
        unfold compOK
        apply Bool.or_eq_true_iff.mpr
        refine .inr (Bool.and_eq_true_iff.mpr ⟨by simpa using hne, ?_⟩)
        apply List.all_eq_true.mpr
        intro x hx
        exact List.mem_takeWhile_imp hx

theorem takeComp_complete {os : GoStr} (hos : compOK os = true) {c0 : Char}
    (hc0 : isAlphaNum c0 = false) (rest : GoStr) :
    takeComp (os ++ c0 :: rest) = (os, c0 :: rest) := by
  unfold compOK at hos
  rcases Bool.or_eq_true_iff.mp hos with h | h
  · have : os = ['*'] := by simpa using h
    subst this
    rfl
  · obtain ⟨hne, hall⟩ := Bool.and_eq_true_iff.mp h
    have hall2 := List.all_eq_true.mp hall
    cases os with
    | nil => simp at hne
    | cons a os2 =>
      have ha : isAlphaNum a = true := hall2 a (by simp)
      have hastar : (a == '*') = false := by
        simp only [beq_eq_false_iff_ne, ne_eq]
        intro haa
        rw [haa] at ha
        cases ha
      have happ := @takeWhile_all_app isAlphaNum (a :: os2)
        (fun x hx => hall2 x hx) (c0 :: rest)
      rw [List.cons_append]
      simp only [takeComp, hastar, Bool.false_eq_true, if_neg, not_false_eq_true]
      rw [List.cons_append] at happ
      rw [happ.1, happ.2, List.takeWhile_cons_of_neg (by simp [hc0]),
        List.dropWhile_cons_of_neg (by simp [hc0])]
      simp

theorem takeComp_whole {a : GoStr} (h : compOK a = true) : takeComp a = (a, []) := by
  unfold compOK at h
  rcases Bool.or_eq_true_iff.mp h with h2 | h2
  · have : a = ['*'] := by simpa using h2
    subst this
    rfl
  · obtain ⟨hne, hall⟩ := Bool.and_eq_true_iff.mp h2
    have hall2 := List.all_eq_true.mp hall
    cases a with
    | nil => simp at hne
    | cons c cs =>
      have hc : isAlphaNum c = true := hall2 c (by simp)
      have hcstar : (c == '*') = false := by
        simp only [beq_eq_false_iff_ne, ne_eq]
        intro hcc
        rw [hcc] at hc
        cases hc
      simp only [takeComp, hcstar, Bool.false_eq_true, if_neg, not_false_eq_true,
        Prod.mk.injEq]
      constructor
      · exact List.takeWhile_eq_self_iff.mpr hall2
      · exact List.dropWhile_eq_nil_iff.mpr hall2

theorem splitComma_ne_nil (cs : GoStr) : splitComma cs ≠ [] := by
  cases cs with
  | nil => simp [splitComma]
  | cons c rest =>
    by_cases hc : (c == ',') = true
    · simp [splitComma, hc]
    · simp only [splitComma, hc, Bool.false_eq_true, if_neg, not_false_eq_true]
      cases hs : splitComma rest <;> simp

theorem splitComma_no_comma {e : GoStr} (h : ',' ∉ e) : splitComma e = [e] := by
  induction e with
  | nil => rfl
  | cons c cs ih =>
    simp only [List.mem_cons, not_or] at h
    have hc : (c == ',') = false := by
      simp only [beq_eq_false_iff_ne, ne_eq]
      exact fun hcc => h.1 (hcc ▸ rfl)
    simp only [splitComma, hc, Bool.false_eq_true, if_neg, not_false_eq_true]
    rw [ih h.2]

theorem splitComma_append {e : GoStr} (h : ',' ∉ e) (r : GoStr) :
    splitComma (e ++ ',' :: r) = e :: splitComma r := by
  induction e with
  | nil => simp [splitComma]
  | cons c cs ih =>
    simp only [List.mem_cons, not_or] at h
    have hc : (c == ',') = false := by
      simp only [beq_eq_false_iff_ne, ne_eq]
      exact fun hcc => h.1 (hcc ▸ rfl)
    simp only [List.cons_append, splitComma, hc, Bool.false_eq_true, if_neg,
      not_false_eq_true, List.append_eq]
    rw [ih h.2]

theorem joinComma_cons {e : GoStr} {l : List GoStr} (h : l ≠ []) :
    joinComma (e :: l) = e ++ ',' :: joinComma l := by
  cases l with
  | nil => exact absurd rfl h
  | cons p ps => rfl

theorem joinComma_splitComma (s : GoStr) : joinComma (splitComma s) = s := by
  induction s with
  | nil => rfl
  | cons c rest ih =>
    by_cases hc : (c == ',') = true
    · have hcc : c = ',' := beq_iff_eq.mp hc
      subst hcc
      simp only [splitComma]
      have htr : ((',' == ',') = true) := rfl
      rw [if_pos htr, joinComma_cons (splitComma_ne_nil rest), ih]
      simp
    · simp only [splitComma, hc, Bool.false_eq_true, if_neg, not_false_eq_true]
      cases hs : splitComma rest with
      | nil => exact absurd hs (splitComma_ne_nil rest)
      | cons p ps =>
        rw [hs] at ih
        cases ps with
        | nil =>
          simp only [joinComma] at ih ⊢
          rw [ih]
        | cons q qs =>
          rw [joinComma_cons (by simp)] at ih
          rw [joinComma_cons (by simp)]
          simp only [List.cons_append]
          rw [ih]

theorem parseEntry_sound {cs e r : GoStr} (h : parseEntry cs = .ok (e, r)) :
    cs = e ++ r ∧ entryOK e = true ∧ ',' ∉ e := by
  unfold parseEntry at h
  split at h
  next os r1 htc =>
  obtain ⟨hcs, hosOK⟩ := takeComp_sound htc
  split at h
  · cases h
  next hos =>
  have hosOK2 : compOK os = true := hosOK (by simpa using hos)
  split at h
  · cases h
  next c r2 =>
  split at h
  · next hsl =>
    split at h
    next arch r3 hta =>
    obtain ⟨hr2, harchOK⟩ := takeComp_sound hta
    split at h
    · cases h
    next har =>
    have harchOK2 : compOK arch = true := harchOK (by simpa using har)
    simp only [Except.ok.injEq, Prod.mk.injEq] at h
    obtain ⟨he, hr⟩ := h
    subst he; subst hr
    have hcsl : c = '/' := beq_iff_eq.mp hsl
    subst hcsl
    refine ⟨by rw [hcs, hr2]; simp, ?_, ?_⟩
    · unfold entryOK
      rw [splitFirst_append_of_not_mem
        (compOK_not_mem hosOK2 (by decide) (by decide))]
      simp [hosOK2, harchOK2]
    · intro hmem
      rcases List.mem_append.mp hmem with hx | hx
      · exact compOK_not_mem hosOK2 (by decide) (by decide) hx
      · rcases List.mem_cons.mp hx with hx | hx
        · cases hx
        · exact compOK_not_mem harchOK2 (by decide) (by decide) hx
  · cases h

theorem parseEntry_complete {e : GoStr} (he : entryOK e = true) (r : GoStr)
    (hr : r = [] ∨ ∃ r2, r = ',' :: r2) : parseEntry (e ++ r) = .ok (e, r) := by
  unfold entryOK at he
  split at he
  · next os arch hsp =>
    obtain ⟨hosOK, harchOK⟩ := Bool.and_eq_true_iff.mp he
    have hdec := splitFirst_decomp hsp
    subst hdec
    have htc1 : takeComp ((os ++ '/' :: arch) ++ r) = (os, '/' :: (arch ++ r)) := by
      rw [List.append_assoc, List.cons_append]
      exact takeComp_complete hosOK (by decide) (arch ++ r)
    have htc2 : takeComp (arch ++ r) = (arch, r) := by
      rcases hr with hr | ⟨r2, hr⟩
      · subst hr
        rw [List.append_nil]
        exact takeComp_whole harchOK
      · subst hr
        exact takeComp_complete harchOK (by decide) r2
    unfold parseEntry
    rw [htc1]
    simp only [htc2]
    rw [if_neg (by simp [compOK_ne_nil hosOK]),
      if_pos (show ('/' == '/') = true from rfl),
      if_neg (by simp [compOK_ne_nil harchOK])]
  · cases he

theorem parseLoop_sound :
    ∀ (N : Nat) (cs : GoStr), cs.length ≤ N → ∀ l, parseLoop cs = .ok l →
      l = splitComma cs ∧ (splitComma cs).all entryOK = true := by
  intro N
  induction N with
  | zero =>
    intro cs hlen l h
    have hcs : cs = [] := by
      cases cs with
      | nil => rfl
      | cons _ _ => simp at hlen
    subst hcs
    rw [parseLoop.eq_def] at h
    split at h
    · cases h
    · next entry rest hpe =>
      have := parseEntry_consumes [] entry rest hpe
      simp at this
  | succ N ih =>
    intro cs hlen l h
    rw [parseLoop.eq_def] at h
    split at h
    · cases h
    · next entry rest hpe =>
      obtain ⟨hcs, heOK, hnc⟩ := parseEntry_sound hpe
      split at h
      · simp only [Except.ok.injEq] at h
        subst hcs
        rw [List.append_nil, splitComma_no_comma hnc]
        simp [← h, heOK]
      · next c rest2 =>
        split at h
        · next hcomma =>
          have hcc : c = ',' := beq_iff_eq.mp hcomma
          subst hcc
          split at h
          · cases h
          next hne =>
          split at h
          · cases h
          next l2 hpl =>
          simp only [Except.ok.injEq] at h
          have hlen2 : rest2.length ≤ N := by
            have := parseEntry_consumes cs entry (',' :: rest2) hpe
            simp at this hlen
            omega
          obtain ⟨hl2, hall2⟩ := ih rest2 hlen2 l2 hpl
          subst hcs
          rw [splitComma_append hnc]
          constructor
          · rw [← h, hl2]
          · simp [heOK, hall2]
        · cases h

theorem parseLoop_complete :
    ∀ (N : Nat) (cs : GoStr), cs.length ≤ N → cs ≠ [] →
      (splitComma cs).all entryOK = true → parseLoop cs = .ok (splitComma cs) := by
  intro N
  induction N with
  | zero =>
    intro cs hlen hne
    exact absurd (List.length_eq_zero.mp (Nat.le_zero.mp hlen)) hne
  | succ N ih =>
    intro cs hlen hne hall
    by_cases hc : ',' ∈ cs
    · have hsp := splitFirst_of_mem hc
      have hdec : cs = cs.takeWhile (fun c => !(c == ',')) ++
          ',' :: (cs.dropWhile (fun c => !(c == ','))).tail :=
        splitFirst_decomp hsp
      have hnce : ',' ∉ cs.takeWhile (fun c => !(c == ',')) := by
        intro hx
        have := List.mem_takeWhile_imp hx
        simp at this
      have hscs : splitComma cs =
          cs.takeWhile (fun c => !(c == ',')) ::
            splitComma (cs.dropWhile (fun c => !(c == ','))).tail := by
        conv in splitComma cs => rw [hdec]
        exact splitComma_append hnce _
      rw [hscs] at hall
      simp only [List.all_cons, Bool.and_eq_true] at hall
      obtain ⟨heOK, hallr⟩ := hall
      have hrne : (cs.dropWhile (fun c => !(c == ','))).tail ≠ [] := by
        intro hx
        rw [hx] at hallr
        simp [splitComma, entryOK, splitFirst] at hallr
      have hpe : parseEntry cs = .ok (cs.takeWhile (fun c => !(c == ',')),
          ',' :: (cs.dropWhile (fun c => !(c == ','))).tail) := by
        conv in parseEntry cs => rw [hdec]
        exact parseEntry_complete heOK _ (.inr ⟨_, rfl⟩)
      have hlen2 : (cs.dropWhile (fun c => !(c == ','))).tail.length ≤ N := by
        have hlen3 := congrArg List.length hdec
        rw [List.length_append, List.length_cons] at hlen3
        omega
      rw [parseLoop.eq_def]
      split
      · next e heq => rw [heq] at hpe; cases hpe
      · next entry rest heq =>
        rw [heq] at hpe
        simp only [Except.ok.injEq, Prod.mk.injEq] at hpe
        obtain ⟨hent, hrest⟩ := hpe
        subst hent
        subst hrest
        simp only [beq_self_eq_true, if_true]
        rw [if_neg (by simp [List.isEmpty_iff, hrne]),
          ih _ hlen2 hrne hallr, hscs]
    · have hscs : splitComma cs = [cs] := splitComma_no_comma hc
      rw [hscs] at hall
      simp only [List.all_cons, List.all_nil, Bool.and_true] at hall
      have hpe : parseEntry cs = .ok (cs, []) := by
        have := parseEntry_complete hall [] (.inl rfl)
        rwa [List.append_nil] at this
      rw [parseLoop.eq_def]
      split
      · next e heq => rw [heq] at hpe; cases hpe
      · next entry rest heq =>
        rw [heq] at hpe
        simp only [Except.ok.injEq, Prod.mk.injEq] at hpe
        obtain ⟨hent, hrest⟩ := hpe
        subst hent
        subst hrest
        rw [hscs]

/-! ## Claims C6 and C10: the filter-string validator -/

/-- C6: `validateFilterString` succeeds exactly on non-empty
single-comma-separated lists of `OS/ARCH` entries whose components are
the wildcard or one-or-more alphanumerics (so the empty input, leading,
trailing and double commas, empty components and partial wildcards all
fail), and on success it returns exactly the comma-separated entries in
input order, duplicates kept. -/
theorem validateFilterString_spec (s : GoStr) :
    ((∃ l, validateFilterString s = .ok l) ↔ filterSpecOK s = true)
    ∧ (filterSpecOK s = true → validateFilterString s = .ok (splitComma s)) := by
  have hcomplete : filterSpecOK s = true →
      validateFilterString s = .ok (splitComma s) := by
    intro hs
    unfold filterSpecOK at hs
    obtain ⟨hne, hall⟩ := Bool.and_eq_true_iff.mp hs
    have hne2 : s ≠ [] := by
      simpa [List.isEmpty_iff] using hne
    unfold validateFilterString
    rw [if_neg (by simp [List.isEmpty_iff, hne2])]
    exact parseLoop_complete s.length s le_rfl hne2 hall
  refine ⟨⟨?_, fun hs => ⟨_, hcomplete hs⟩⟩, hcomplete⟩
  rintro ⟨l, hl⟩
  unfold validateFilterString at hl
  split at hl
  · cases hl
  next hne =>
  obtain ⟨-, hall⟩ := parseLoop_sound s.length s le_rfl l hl
  unfold filterSpecOK
  refine Bool.and_eq_true_iff.mpr ⟨?_, hall⟩
  simpa using hne

/-- Witness for C6: the two-entry input from the repository's tests
parses to exactly its two entries in order. -/
theorem validateFilterString_spec_witness :
    validateFilterString ("linux/amd64,*/arm64".data) =
      .ok ["linux/amd64".data, "*/arm64".data] := by
  have h := (validateFilterString_spec ("linux/amd64,*/arm64".data)).2 (by decide)
  rw [show splitComma ("linux/amd64,*/arm64".data) =
    ["linux/amd64".data, "*/arm64".data] from by decide] at h
  exact h

/-- C10: the parse is lossless — joining the returned entries with single
commas reproduces the accepted input exactly. -/
theorem validateFilterString_lossless (s : GoStr) (l : List GoStr)
    (h : validateFilterString s = .ok l) : joinComma l = s := by
  unfold validateFilterString at h
  split at h
  · cases h
  obtain ⟨hl, -⟩ := parseLoop_sound s.length s le_rfl l h
  rw [hl, joinComma_splitComma]

/-- Witness for C10 at a concrete accepted input. -/
theorem validateFilterString_lossless_witness :
    joinComma ["linux/*".data, "darwin/arm64".data] =
      "linux/*,darwin/arm64".data :=
  validateFilterString_lossless ("linux/*,darwin/arm64".data)
    ["linux/*".data, "darwin/arm64".data]
    (by
      unfold validateFilterString
      rw [if_neg (by decide)]
      have h := parseLoop_complete 20 ("linux/*,darwin/arm64".data)
        (by decide) (by decide) (by decide)
      rw [show splitComma ("linux/*,darwin/arm64".data) =
        ["linux/*".data, "darwin/arm64".data] from by decide] at h
      exact h)

/-! ## Configuration scanner lemmas -/

theorem prefix_output_marker {cs : GoStr}
    (h : outputKey.isPrefixOf cs = true) : goMarker.isPrefixOf cs = true := by
  rw [List.isPrefixOf_iff_prefix] at h ⊢
  exact List.IsPrefix.trans ⟨"output=".data, rfl⟩ h

theorem validateTemplate_ok_ne_nil {cs : GoStr} (h : validateTemplate cs = .ok) :
    cs.isEmpty = false := by
  unfold validateTemplate at h
  split at h
  · cases h
  · next hne => simpa using hne

/-- Case analysis invariant of the per-file line scan: the scan either
succeeds with output-presence reflected in the output-line count, or
fails on a duplicate output with the count witnessing the duplicate, or
fails otherwise (or panics) because some line is invalid. -/
theorem scanLines_cases :
    ∀ (lines : List GoStr) (opts : options),
      (∃ topts, scanLines lines opts = .ok topts ∧
        (topts.Output.isEmpty = true ↔
          (opts.Output.isEmpty = true ∧ lines.countP isOutputLine = 0)) ∧
        (opts.Output.isEmpty = true → lines.countP isOutputLine ≤ 1) ∧
        (opts.Output.isEmpty = false → lines.countP isOutputLine = 0))
      ∨ (scanLines lines opts = .err .duplicateOutput ∧
          (if opts.Output.isEmpty then 2 else 1) ≤ lines.countP isOutputLine)
      ∨ (∃ e, e ≠ ScanErr.duplicateOutput ∧ scanLines lines opts = .err e ∧
          ∃ lx ∈ lines, lineValid lx = false)
      ∨ (scanLines lines opts = .panicked ∧ ∃ lx ∈ lines, lineValid lx = false) := by
  intro lines
  induction lines with
  | nil =>
    intro opts
    exact .inl ⟨opts, rfl, by simp, by simp, by simp⟩
  | cons l ls ih =>
    intro opts
    by_cases hm : goMarker.isPrefixOf (trimSpace l) = true
    case neg =>
      have hout : isOutputLine l = false := by
        unfold isOutputLine
        cases hol : outputKey.isPrefixOf (trimSpace l)
        · rfl
        · exact absurd (prefix_output_marker hol) hm
      have hstep : scanLines (l :: ls) opts = scanLines ls opts := by
        simp only [scanLines]
        rw [if_pos (by simp [hm])]
      have hcount : (l :: ls).countP isOutputLine = ls.countP isOutputLine := by
        rw [List.countP_cons, hout]
        simp
      rw [hstep, hcount]
      rcases ih opts with ⟨topts, h1, h2, h3, h4⟩ | ⟨h1, h2⟩ |
        ⟨e, h1, h2, lx, hlx, h3⟩ | ⟨h1, lx, hlx, h3⟩
      · exact .inl ⟨topts, h1, h2, h3, h4⟩
      · exact .inr (.inl ⟨h1, h2⟩)
      · exact .inr (.inr (.inl ⟨e, h1, h2, lx, List.mem_cons_of_mem _ hlx, h3⟩))
      · exact .inr (.inr (.inr ⟨h1, lx, List.mem_cons_of_mem _ hlx, h3⟩))
    case pos =>
      by_cases ho : outputKey.isPrefixOf (trimSpace l) = true
      · -- an output= line
        have hout : isOutputLine l = true := ho
        have hcount : (l :: ls).countP isOutputLine =
            ls.countP isOutputLine + 1 := by
          rw [List.countP_cons, hout]
          simp
        by_cases hdup : opts.Output.isEmpty = true
        · -- no output recorded yet: validate and continue
          cases hvt : validateTemplate ((trimSpace l).drop outputKey.length) with
          | ok =>
            have hstep : scanLines (l :: ls) opts =
                scanLines ls { opts with
                  Output := (trimSpace l).drop outputKey.length } := by
              simp only [scanLines]
              rw [if_neg (by simp [hm]), if_pos ho,
                if_neg (by simp [hdup]), hvt]
            have hne2 : ({ opts with
                Output := (trimSpace l).drop outputKey.length } :
                  options).Output.isEmpty = false :=
              validateTemplate_ok_ne_nil hvt
            rw [hstep, hcount]
            rcases ih { opts with Output := (trimSpace l).drop outputKey.length }
              with ⟨topts, h1, h2, h3, h4⟩ | ⟨h1, h2⟩ |
                ⟨e, h1, h2, lx, hlx, h3⟩ | ⟨h1, lx, hlx, h3⟩
            · refine .inl ⟨topts, h1, ?_, ?_, ?_⟩
              · rw [h2]
                simp [hne2]
              · intro hoe
                have := h4 hne2
                omega
              · intro hoe
                rw [hoe] at hdup
                cases hdup
            · refine .inr (.inl ⟨h1, ?_⟩)
              rw [hne2] at h2
              simp only [Bool.false_eq_true, if_neg, not_false_eq_true] at h2
              rw [if_pos hdup]
              omega
            · exact .inr (.inr (.inl ⟨e, h1, h2, lx, List.mem_cons_of_mem _ hlx, h3⟩))
            · exact .inr (.inr (.inr ⟨h1, lx, List.mem_cons_of_mem _ hlx, h3⟩))
          | error e =>
            have hstep : scanLines (l :: ls) opts = .err (.invalidTemplate e) := by
              simp only [scanLines]
              rw [if_neg (by simp [hm]), if_pos ho,
                if_neg (by simp [hdup]), hvt]
            refine .inr (.inr (.inl ⟨.invalidTemplate e, by simp, hstep,
              l, List.mem_cons_self _ _, ?_⟩))
            simp only [lineValid]
            rw [if_neg (by simp [hm]), if_pos ho, hvt]
          | panicOOB =>
            have hstep : scanLines (l :: ls) opts = .panicked := by
              simp only [scanLines]
              rw [if_neg (by simp [hm]), if_pos ho,
                if_neg (by simp [hdup]), hvt]
            refine .inr (.inr (.inr ⟨hstep, l, List.mem_cons_self _ _, ?_⟩))
            simp only [lineValid]
            rw [if_neg (by simp [hm]), if_pos ho, hvt]
        · -- duplicate output within the file
          have hstep : scanLines (l :: ls) opts = .err .duplicateOutput := by
            simp only [scanLines]
            rw [if_neg (by simp [hm]), if_pos ho, if_pos (by simp [hdup])]
          refine .inr (.inl ⟨hstep, ?_⟩)
          rw [if_neg hdup, hcount]
          omega
      · -- include=, exclude= or unknown directive
        have hout : isOutputLine l = false := by
          unfold isOutputLine
          cases hol : outputKey.isPrefixOf (trimSpace l)
          · rfl
          · exact absurd hol ho
        have hcount : (l :: ls).countP isOutputLine = ls.countP isOutputLine := by
          rw [List.countP_cons, hout]
          simp
        by_cases hi : includeKey.isPrefixOf (trimSpace l) = true
        · cases hvf : validateFilterString ((trimSpace l).drop includeKey.length) with
          | ok fs =>
            have hstep : scanLines (l :: ls) opts =
                scanLines ls { opts with Include := fs } := by
              simp only [scanLines]
              rw [if_neg (by simp [hm]), if_neg (by simp [ho]), if_pos hi, hvf]
            rw [hstep, hcount]
            rcases ih { opts with Include := fs }
              with ⟨topts, h1, h2, h3, h4⟩ | ⟨h1, h2⟩ |
                ⟨e, h1, h2, lx, hlx, h3⟩ | ⟨h1, lx, hlx, h3⟩
            · exact .inl ⟨topts, h1, h2, h3, h4⟩
            · exact .inr (.inl ⟨h1, h2⟩)
            · exact .inr (.inr (.inl ⟨e, h1, h2, lx, List.mem_cons_of_mem _ hlx, h3⟩))
            · exact .inr (.inr (.inr ⟨h1, lx, List.mem_cons_of_mem _ hlx, h3⟩))
          | error e =>
            have hstep : scanLines (l :: ls) opts = .err (.invalidFilter e) := by
              simp only [scanLines]
              rw [if_neg (by simp [hm]), if_neg (by simp [ho]), if_pos hi, hvf]
            refine .inr (.inr (.inl ⟨.invalidFilter e, by simp, hstep,
              l, List.mem_cons_self _ _, ?_⟩))
            simp only [lineValid]
            rw [if_neg (by simp [hm]), if_neg (by simp [ho]), if_pos hi, hvf]
        · by_cases he : excludeKey.isPrefixOf (trimSpace l) = true
          · cases hvf : validateFilterString ((trimSpace l).drop excludeKey.length) with
            | ok fs =>
              have hstep : scanLines (l :: ls) opts =
                  scanLines ls { opts with Exclude := fs } := by
                simp only [scanLines]
                rw [if_neg (by simp [hm]), if_neg (by simp [ho]),
                  if_neg (by simp [hi]), if_pos he, hvf]
              rw [hstep, hcount]
              rcases ih { opts with Exclude := fs }
                with ⟨topts, h1, h2, h3, h4⟩ | ⟨h1, h2⟩ |
                  ⟨e, h1, h2, lx, hlx, h3⟩ | ⟨h1, lx, hlx, h3⟩
              · exact .inl ⟨topts, h1, h2, h3, h4⟩
              · exact .inr (.inl ⟨h1, h2⟩)
              · exact .inr (.inr (.inl ⟨e, h1, h2, lx,
                  List.mem_cons_of_mem _ hlx, h3⟩))
              · exact .inr (.inr (.inr ⟨h1, lx, List.mem_cons_of_mem _ hlx, h3⟩))
            | error e =>
              have hstep : scanLines (l :: ls) opts = .err (.invalidFilter e) := by
                simp only [scanLines]
                rw [if_neg (by simp [hm]), if_neg (by simp [ho]),
                  if_neg (by simp [hi]), if_pos he, hvf]
              refine .inr (.inr (.inl ⟨.invalidFilter e, by simp, hstep,
                l, List.mem_cons_self _ _, ?_⟩))
              simp only [lineValid]
              rw [if_neg (by simp [hm]), if_neg (by simp [ho]),
                if_neg (by simp [hi]), if_pos he, hvf]
          · have hstep : scanLines (l :: ls) opts = .err .unknownDirective := by
              simp only [scanLines]
              rw [if_neg (by simp [hm]), if_neg (by simp [ho]),
                if_neg (by simp [hi]), if_neg (by simp [he])]
            refine .inr (.inr (.inl ⟨.unknownDirective, by simp, hstep,
              l, List.mem_cons_self _ _, ?_⟩))
            simp only [lineValid]
            rw [if_neg (by simp [hm]), if_neg (by simp [ho]),
              if_neg (by simp [hi]), if_neg (by simp [he])]

/-- Case analysis invariant of the directory scan, mirroring
`scanLines_cases` with the output-line count summed over all files. -/
theorem scanDir_cases :
    ∀ (files : List (List GoStr)) (opts : options),
      (∃ o, scanDir files opts = .ok o ∧
        (o.Output.isEmpty = true ↔
          (opts.Output.isEmpty = true ∧ countOutputs files = 0)) ∧
        (opts.Output.isEmpty = true → countOutputs files ≤ 1) ∧
        (opts.Output.isEmpty = false → countOutputs files = 0))
      ∨ (scanDir files opts = .err .duplicateOutput ∧
          (if opts.Output.isEmpty then 2 else 1) ≤ countOutputs files)
      ∨ (∃ e, e ≠ ScanErr.duplicateOutput ∧ scanDir files opts = .err e ∧
          ∃ f ∈ files, ∃ lx ∈ f, lineValid lx = false)
      ∨ (scanDir files opts = .panicked ∧
          ∃ f ∈ files, ∃ lx ∈ f, lineValid lx = false) := by
  intro files
  induction files with
  | nil =>
    intro opts
    exact .inl ⟨opts, rfl, by simp [countOutputs], by simp [countOutputs],
      by simp [countOutputs]⟩
  | cons f fs ih =>
    intro opts
    have hco : countOutputs (f :: fs) = f.countP isOutputLine + countOutputs fs := by
      simp [countOutputs]
    rcases scanLines_cases f ⟨[], [], []⟩ with
      ⟨topts, hT, hTiff, hTle, -⟩ | ⟨hT, hTb⟩ |
        ⟨e, hend, hT, lx, hlx, hbad⟩ | ⟨hT, lx, hlx, hbad⟩
    · have hT2 : scanBuildPath f = .ok topts := hT
      have hTiff2 : topts.Output.isEmpty = true ↔ f.countP isOutputLine = 0 := by
        simpa using hTiff
      have hTle2 : f.countP isOutputLine ≤ 1 := hTle rfl
      by_cases hd : (!opts.Output.isEmpty && !topts.Output.isEmpty) = true
      · have hstep : scanDir (f :: fs) opts = .err .duplicateOutput := by
          simp only [scanDir]
          rw [hT2]
          exact if_pos hd
        obtain ⟨hoe, hte⟩ := Bool.and_eq_true_iff.mp hd
        have hcf : f.countP isOutputLine ≠ 0 := by
          intro hx
          have := hTiff2.mpr hx
          simp [this] at hte
        refine .inr (.inl ⟨hstep, ?_⟩)
        rw [if_neg (by simpa using hoe), hco]
        omega
      · have hstep : scanDir (f :: fs) opts =
            scanDir fs ⟨if !topts.Output.isEmpty then topts.Output else opts.Output,
              opts.Include ++ topts.Include, opts.Exclude ++ topts.Exclude⟩ := by
          simp only [scanDir]
          rw [hT2]
          exact if_neg hd
        cases htE : topts.Output.isEmpty with
        | true =>
          have hcf : f.countP isOutputLine = 0 := hTiff2.mp htE
          rw [htE] at hstep
          simp only [Bool.not_true, Bool.false_eq_true, if_neg,
            not_false_eq_true] at hstep
          rcases ih ⟨opts.Output, opts.Include ++ topts.Include,
              opts.Exclude ++ topts.Exclude⟩ with
            ⟨o, hro, hoiff, hole, hoz⟩ | ⟨hrd, hb⟩ |
              ⟨e, hend, hre, fx, hfx, lx, hlx, hbad⟩ | ⟨hrp, fx, hfx, lx, hlx, hbad⟩
          · refine .inl ⟨o, hstep ▸ hro, ?_, ?_, ?_⟩
            · rw [hoiff, hco, hcf]
              simp
            · intro hoe
              have := hole hoe
              rw [hco, hcf]
              omega
            · intro hoe
              have := hoz hoe
              rw [hco, hcf]
              omega
          · refine .inr (.inl ⟨hstep ▸ hrd, ?_⟩)
            rw [hco, hcf]
            simpa using hb
          · exact .inr (.inr (.inl ⟨e, hend, hstep ▸ hre, fx,
              List.mem_cons_of_mem _ hfx, lx, hlx, hbad⟩))
          · exact .inr (.inr (.inr ⟨hstep ▸ hrp, fx,
              List.mem_cons_of_mem _ hfx, lx, hlx, hbad⟩))
        | false =>
          have hcf : f.countP isOutputLine = 1 := by
            have h1 : f.countP isOutputLine ≠ 0 := by
              intro hx
              have := hTiff2.mpr hx
              rw [this] at htE
              cases htE
            omega
          have hoe : opts.Output.isEmpty = true := by
            cases hoo : opts.Output.isEmpty with
            | true => rfl
            | false =>
              exact absurd (by simp [hoo, htE]) hd
          rw [htE] at hstep
          simp only [Bool.not_false, if_pos] at hstep
          rcases ih ⟨topts.Output, opts.Include ++ topts.Include,
              opts.Exclude ++ topts.Exclude⟩ with
            ⟨o, hro, hoiff, hole, hoz⟩ | ⟨hrd, hb⟩ |
              ⟨e, hend, hre, fx, hfx, lx, hlx, hbad⟩ | ⟨hrp, fx, hfx, lx, hlx, hbad⟩
          · refine .inl ⟨o, hstep ▸ hro, ?_, ?_, ?_⟩
            · rw [hoiff]
              simp only [htE]
              rw [hco, hcf]
              constructor
              · intro h
                cases h.1
              · intro h
                omega
            · intro hx
              have := hoz htE
              rw [hco, hcf]
              omega
            · intro hx
              rw [hx] at hoe
              cases hoe
          · refine .inr (.inl ⟨hstep ▸ hrd, ?_⟩)
            rw [htE] at hb
            simp only [Bool.false_eq_true, if_neg, not_false_eq_true] at hb
            rw [if_pos hoe, hco, hcf]
            omega
          · exact .inr (.inr (.inl ⟨e, hend, hstep ▸ hre, fx,
              List.mem_cons_of_mem _ hfx, lx, hlx, hbad⟩))
          · exact .inr (.inr (.inr ⟨hstep ▸ hrp, fx,
              List.mem_cons_of_mem _ hfx, lx, hlx, hbad⟩))
    · have hT2 : scanBuildPath f = .err .duplicateOutput := hT
      have hstep : scanDir (f :: fs) opts = .err .duplicateOutput := by
        simp only [scanDir]
        rw [hT2]
      refine .inr (.inl ⟨hstep, ?_⟩)
      simp only [List.isEmpty_nil, if_pos] at hTb
      rw [hco]
      split <;> omega
    · have hT2 : scanBuildPath f = .err e := hT
      have hstep : scanDir (f :: fs) opts = .err e := by
        simp only [scanDir]
        rw [hT2]
      exact .inr (.inr (.inl ⟨e, hend, hstep, f, List.mem_cons_self _ _,
        lx, hlx, hbad⟩))
    · have hT2 : scanBuildPath f = .panicked := hT
      have hstep : scanDir (f :: fs) opts = .panicked := by
        simp only [scanDir]
        rw [hT2]
      exact .inr (.inr (.inr ⟨hstep, f, List.mem_cons_self _ _, lx, hlx, hbad⟩))

/-! ## Claim C7: duplicate output directives -/

/-- C7 (counterexample): a scan with two `output=` directives where the
first carries an invalid template fails with `InvalidTemplate`, not with
`DuplicateOutput`, contradicting the claim that any two `output=`
occurrences fail with `DuplicateOutput`. -/
theorem scanBuildDir_two_outputs_cex :
    countOutputs [["//go:multibuild:output=!".data],
      ["//go:multibuild:output=a-$\x7bTARGET\x7d-$\x7bGOOS\x7d-$\x7bGOARCH\x7d".data]] = 2 ∧
    scanBuildDir [["//go:multibuild:output=!".data],
      ["//go:multibuild:output=a-$\x7bTARGET\x7d-$\x7bGOOS\x7d-$\x7bGOARCH\x7d".data]] =
      .err (.invalidTemplate .unexpectedChar) ∧
    scanBuildDir [["//go:multibuild:output=!".data],
      ["//go:multibuild:output=a-$\x7bTARGET\x7d-$\x7bGOOS\x7d-$\x7bGOARCH\x7d".data]] ≠
      .err .duplicateOutput := by
  have h2 : scanBuildDir [["//go:multibuild:output=!".data],
      ["//go:multibuild:output=a-$\x7bTARGET\x7d-$\x7bGOOS\x7d-$\x7bGOARCH\x7d".data]] =
      .err (.invalidTemplate .unexpectedChar) := by
    simp [scanBuildDir, scanDir, scanBuildPath, scanLines, trimSpace, isSpace,
      goMarker, outputKey, includeKey, excludeKey, validateTemplate, vtScan,
      isAllowedPathChar]
  refine ⟨by decide, h2, ?_⟩
  rw [h2]
  simp

/-- C7 (amended): a scan containing at most one `output=` directive never
fails with `DuplicateOutput`; a scan containing two or more `output=`
directives never succeeds; and when additionally every directive line is
valid, it fails with `DuplicateOutput` exactly as the claim describes. -/
theorem scanBuildDir_duplicate_output (files : List (List GoStr)) :
    (countOutputs files ≤ 1 → scanBuildDir files ≠ .err .duplicateOutput)
    ∧ (2 ≤ countOutputs files → ∀ o, scanBuildDir files ≠ .ok o)
    ∧ (2 ≤ countOutputs files →
        (∀ f ∈ files, ∀ lx ∈ f, lineValid lx = true) →
        scanBuildDir files = .err .duplicateOutput) := by
  rcases scanDir_cases files ⟨[], [], []⟩ with
    ⟨o, hro, -, hole, -⟩ | ⟨hrd, hb⟩ |
      ⟨e, hend, hre, f, hf, lx, hlx, hbad⟩ | ⟨hrp, f, hf, lx, hlx, hbad⟩
  · have hsb : scanBuildDir files = .ok (applyScanDefaults o) := by
      unfold scanBuildDir
      rw [hro]
    have hcount : countOutputs files ≤ 1 := hole rfl
    exact ⟨fun _ => by rw [hsb]; simp,
      fun h2 o2 => absurd h2 (by omega),
      fun h2 _ => absurd h2 (by omega)⟩
  · have hsb : scanBuildDir files = .err .duplicateOutput := by
      unfold scanBuildDir
      rw [hrd]
    have hb2 : 2 ≤ countOutputs files := by simpa using hb
    exact ⟨fun h1 => absurd h1 (by omega),
      fun _ o2 => by rw [hsb]; simp,
      fun _ _ => hsb⟩
  · have hsb : scanBuildDir files = .err e := by
      unfold scanBuildDir
      rw [hre]
    refine ⟨fun _ hx => ?_, fun _ o2 hx => ?_, fun _ hval => ?_⟩
    · rw [hsb] at hx
      injection hx with hx2
      exact hend hx2
    · rw [hsb] at hx
      cases hx
    · exact absurd (hval f hf lx hlx) (by simp [hbad])
  · have hsb : scanBuildDir files = .panicked := by
      unfold scanBuildDir
      rw [hrp]
    refine ⟨fun _ hx => ?_, fun _ o2 hx => ?_, fun _ hval => ?_⟩
    · rw [hsb] at hx
      cases hx
    · rw [hsb] at hx
      cases hx
    · exact absurd (hval f hf lx hlx) (by simp [hbad])

/-- Witness for C7's amended statement: two files each carrying one valid
`output=` directive scan to exactly the `DuplicateOutput` failure. -/
theorem scanBuildDir_duplicate_output_witness :
    scanBuildDir [["//go:multibuild:output=a-$\x7bTARGET\x7d-$\x7bGOOS\x7d-$\x7bGOARCH\x7d".data],
      ["//go:multibuild:output=b-$\x7bTARGET\x7d-$\x7bGOOS\x7d-$\x7bGOARCH\x7d".data]] =
      .err .duplicateOutput :=
  (scanBuildDir_duplicate_output
      [["//go:multibuild:output=a-$\x7bTARGET\x7d-$\x7bGOOS\x7d-$\x7bGOARCH\x7d".data],
       ["//go:multibuild:output=b-$\x7bTARGET\x7d-$\x7bGOOS\x7d-$\x7bGOARCH\x7d".data]]).2.2
    (by decide)
    (by
      intro f hf lx hlx
      simp only [List.mem_cons, List.not_mem_nil, or_false] at hf
      rcases hf with hf | hf <;> subst hf <;>
        simp only [List.mem_cons, List.not_mem_nil, or_false] at hlx <;>
        subst hlx <;>
        simp [lineValid, trimSpace, isSpace, goMarker, outputKey, includeKey,
          excludeKey, validateTemplate, vtScan, vtPlaceholder,
          isAllowedPathChar, isAllowedPlaceholderChar, allowedNames])

end Multibuild
